import Mathlib

/-
Shallow embedding of the repository's two headers:

  * src/lru_cache_using_std.h        -- the core single-threaded LRU store
  * src/shared_lru_cache_using_std.h -- the thread-coordinated wrapper

The C++ map (`std::map` / `std::unordered_map`) is embedded as an
association list with unique keys; `find` / `erase(it)` become the
recursive functions `find_val` / `erase_entry` below.  The recency list
`std::list<key_type>` is a Lean `List K` with the least-recently-used
key at the front and the most-recently-used key at the back, exactly as
in the source ("Key access history, most recent at back").  An iterator
stored in the map always points at the unique tracker node holding the
same key, so `splice`-to-back becomes `erase` + append and `erase(it2)`
becomes erasing the first occurrence.
-/

namespace LruTimday

variable {K V : Type} [DecidableEq K]

/-- Embedding of `MAP::find` on an association list: the first entry
whose key equals `k`, if any. -/
def find_val : List (K × V) → K → Option V
  | [], _ => none
  | p :: t, k => if p.1 = k then some p.2 else find_val t k

/-- Embedding of `MAP::erase(it)` where `it = find(k)`: removes the
first entry whose key equals `k`. -/
def erase_entry : List (K × V) → K → List (K × V)
  | [], _ => []
  | p :: t, k => if p.1 = k then t else p :: erase_entry t k

/-- State of `lru_cache_using_std<K, V, MAP>`: the capacity, the key
access history (`_key_tracker`, most recent at back) and the key-to-value
map (`_key_to_value`).  The cached function `_fn` is passed explicitly to
`call` below instead of being stored, and the debug-only
`_eval_counters` member is not modelled. -/
structure lru_cache_using_std (K V : Type) where
  capacity : Nat
  key_tracker : List K
  key_to_value : List (K × V)

namespace lru_cache_using_std

/-- Number of records currently stored (`_key_to_value.size()`). -/
def size (c : lru_cache_using_std K V) : Nat := c.key_to_value.length

/-- `is_full()`: `_key_to_value.size() >= _capacity`. -/
def is_full (c : lru_cache_using_std K V) : Bool := c.capacity ≤ c.size

/-- `has(k)`: `_key_to_value.find(k) != _key_to_value.end()`. -/
def has (c : lru_cache_using_std K V) (k : K) : Bool :=
  (find_val c.key_to_value k).isSome

/-- The private parameterless `evict()`: purge the least-recently-used
element, i.e. the one whose key is at the front of `_key_tracker`.  The
source asserts the tracker is nonempty; on the (never reached) empty
case the model leaves the state unchanged. -/
def evict_lru (c : lru_cache_using_std K V) : lru_cache_using_std K V :=
  match c.key_tracker with
  | [] => c
  | f :: rest =>
      { c with
        key_to_value := erase_entry c.key_to_value f
        key_tracker := rest }

/-- The private `insert(k, v)`: called only on cache misses (the source
asserts `k` is absent).  Makes space by evicting the LRU entry if the
cache is full, then records `k` as the most-recently-used key and links
the key-value entry to it. -/
def insert (c : lru_cache_using_std K V) (k : K) (v : V) :
    lru_cache_using_std K V :=
  let c1 := if c.is_full then c.evict_lru else c
  { c1 with
    key_tracker := c1.key_tracker ++ [k]
    key_to_value := c1.key_to_value ++ [(k, v)] }

/-- `operator()(k)`: on a miss, evaluate the cached function and insert
a new record; on a hit, splice the accessed key to the back of the
tracker and return the stored value.  `fn` is the `_fn` member of the
source, passed explicitly. -/
def call (fn : K → V) (c : lru_cache_using_std K V) (k : K) :
    V × lru_cache_using_std K V :=
  match find_val c.key_to_value k with
  | none =>
      let v := fn k
      (v, c.insert k v)
  | some v =>
      (v, { c with key_tracker := c.key_tracker.erase k ++ [k] })

/-- `set(k, v)`: insert the pair only when the key is missing; when the
key is already present the call does nothing (the source deliberately
leaves the equality assertion commented out so the value type needs no
equality operator). -/
def set (c : lru_cache_using_std K V) (k : K) (v : V) :
    lru_cache_using_std K V :=
  match find_val c.key_to_value k with
  | none => c.insert k v
  | some _ => c

/-- The public `evict(key)`: if the item exists, erase it from the map
and erase the (unique, by the source's assert) matching node from the
tracker; otherwise do nothing. -/
def evict (c : lru_cache_using_std K V) (k : K) : lru_cache_using_std K V :=
  if (find_val c.key_to_value k).isSome then
    { c with
      key_to_value := erase_entry c.key_to_value k
      key_tracker := c.key_tracker.erase k }
  else c

/-- The keys currently present in the map, in map order. -/
def keys (c : lru_cache_using_std K V) : List K := c.key_to_value.map Prod.fst

end lru_cache_using_std

/-- The constructor `lru_cache_using_std(f, c)`: it asserts
`_capacity != 0`, which the model renders as fatal rejection of a
zero capacity.  The function argument mirrors the source signature. -/
def lru_make (f : K → V) (c : Nat) : Option (lru_cache_using_std K V) :=
  if c = 0 then none
  else some { capacity := c, key_tracker := [], key_to_value := [] }

/-- An empty store of a given capacity (the state produced by a
successful construction). -/
def lru_empty (cap : Nat) : lru_cache_using_std K V :=
  { capacity := cap, key_tracker := [], key_to_value := [] }

/-- One public operation on the core store (C3 quantifies over sequences
of these). -/
inductive Op (K V : Type) where
  | get (k : K)
  | set (k : K) (v : V)
  | evict (k : K)
  | has (k : K)
  | is_full

/-- The state transition of one operation.  `has` and `is_full` are
`const` member functions in the source: they return information and
leave the state untouched. -/
def applyOp (fn : K → V) (c : lru_cache_using_std K V) :
    Op K V → lru_cache_using_std K V
  | .get k => (lru_cache_using_std.call fn c k).2
  | .set k v => c.set k v
  | .evict k => c.evict k
  | .has _ => c
  | .is_full => c

/-- Run a sequence of operations from a given state. -/
def runOps (fn : K → V) (c : lru_cache_using_std K V) :
    List (Op K V) → lru_cache_using_std K V
  | [] => c
  | op :: ops => runOps fn (applyOp fn c op) ops

open lru_cache_using_std

/-- The structural invariant of the core store: the tracker is a
permutation of the map's keys (so the two structures are in bijection),
the map's keys are pairwise distinct, and the size is at most the
capacity. -/
def Inv (c : lru_cache_using_std K V) : Prop :=
  c.key_tracker.Perm (keys c) ∧ (keys c).Nodup ∧ c.size ≤ c.capacity

/-
---------- embedding of src/shared_lru_cache_using_std.h ----------

Concurrency is modelled sequentially: one `shared_call` is the body of
`operator()` run by a single caller, and the store activity of the other
threads during the only window in which the caller holds no relevant
lock (between releasing `_underlying_lru_cache_mutex` after the first
probe and re-acquiring it for the re-check under the key-specific mutex)
is summarised by an arbitrary store transformer `interim`.  Mutexes
themselves are not represented; the registry bookkeeping
(`_is_being_evaluated`) and the counters are modelled exactly as the
source updates them.  The user function is `K → Except E V` so that a
throwing `_fn` can be expressed; crucially, the source invokes the
cleanup lambda `done` only on the late-hit return and on the successful
return, so the embedding performs the registry cleanup at exactly those
two points and nowhere else.
-/

/-- Embedding of in-place update of an association-list entry
(`i->second = ...` through a `find` iterator). -/
def update_entry : List (K × V) → K → V → List (K × V)
  | [], _, _ => []
  | p :: t, k, v => if p.1 = k then (p.1, v) :: t else p :: update_entry t k v

/-- The `hit_rate` struct of the shared cache. -/
structure hit_rate where
  calls : Nat := 0
  hits : Nat := 0
  late_hits : Nat := 0

/-- State of `shared_lru_cache_using_std<K, V, MAP>`: the underlying
LRU cache, the `_is_being_evaluated` registry (each entry is a key
together with the `active_threads` set of its ticket, thread ids being
naturals; the per-ticket mutex is not modelled) and the `_hit_rate`
counters. -/
structure shared_lru_cache_using_std (K V : Type) where
  underlying_lru_cache : lru_cache_using_std K V
  is_being_evaluated : List (K × List Nat)
  hit_rate : hit_rate

/-- Registration step of `operator()`: create the ticket for `k` if none
exists, then record the calling thread in its `active_threads` set (the
source asserts the thread is not yet in the set; `unordered_set::insert`
is a no-op on a duplicate). -/
def register_thread (reg : List (K × List Nat)) (k : K) (tid : Nat) :
    List (K × List Nat) :=
  match find_val reg k with
  | none => reg ++ [(k, [tid])]
  | some ts => update_entry reg k (if tid ∈ ts then ts else ts ++ [tid])

/-- The `done` lambda of `operator()`: remove the calling thread from
the ticket's `active_threads`; if the set becomes empty, erase the
ticket from the registry. -/
def done_thread (reg : List (K × List Nat)) (k : K) (tid : Nat) :
    List (K × List Nat) :=
  match find_val reg k with
  | none => reg
  | some ts =>
      let ts2 := ts.erase tid
      if ts2.isEmpty then erase_entry reg k else update_entry reg k ts2

/-- How one completed (or failed) `operator()` call classified itself:
an immediate hit, a late hit after the re-check, a fresh computation
whose result was published, or a propagated failure of the user
function. -/
inductive outcome where
  | hit
  | late_hit
  | fresh
  | failed

/-- The body of `shared_lru_cache_using_std::operator()(k)` for one
caller `tid`.  Returns the result handed to the caller (`Except.error`
models a propagated exception), the outcome class, and the state after
the call.  The function passed to the underlying cache at the two hit
sites is a dummy: the source passes the stored `_fn`, but both call
sites are guarded by `has(k)` so the function argument is never
evaluated there (`call_fn_irrelevant_of_has` below proves this
irrelevance).  On the failing branch the source's exception unwinds
past the explicit `done()` calls, so no registry cleanup happens
there. -/
def shared_call {E : Type} [Inhabited V] (fnE : K → Except E V) (tid : Nat)
    (interim : lru_cache_using_std K V → lru_cache_using_std K V)
    (st : shared_lru_cache_using_std K V) (k : K) :
    Except E V × outcome × shared_lru_cache_using_std K V :=
  if st.underlying_lru_cache.has k then
    let hr := { st.hit_rate with
                calls := st.hit_rate.calls + 1
                hits := st.hit_rate.hits + 1 }
    let r := lru_cache_using_std.call (fun _ => default) st.underlying_lru_cache k
    (Except.ok r.1, outcome.hit,
      { st with underlying_lru_cache := r.2, hit_rate := hr })
  else
    let hr := { st.hit_rate with calls := st.hit_rate.calls + 1 }
    let reg := register_thread st.is_being_evaluated k tid
    let store1 := interim st.underlying_lru_cache
    if store1.has k then
      let r := lru_cache_using_std.call (fun _ => default) store1 k
      let reg2 := done_thread reg k tid
      let hr2 := { hr with late_hits := hr.late_hits + 1 }
      (Except.ok r.1, outcome.late_hit,
        { underlying_lru_cache := r.2, is_being_evaluated := reg2, hit_rate := hr2 })
    else
      match fnE k with
      | Except.error e =>
          (Except.error e, outcome.failed,
            { underlying_lru_cache := store1, is_being_evaluated := reg, hit_rate := hr })
      | Except.ok v =>
          let store2 := store1.set k v
          let reg2 := done_thread reg k tid
          (Except.ok v, outcome.fresh,
            { underlying_lru_cache := store2, is_being_evaluated := reg2, hit_rate := hr })

/-- A freshly constructed shared cache: empty underlying store, empty
registry, zeroed counters. -/
def shared_make (cap : Nat) : shared_lru_cache_using_std K V :=
  { underlying_lru_cache := lru_empty cap
    is_being_evaluated := []
    hit_rate := {} }

/-- Run a sequence of calls; each trace element is the calling thread,
the requested key and the other-thread store activity during that
call's unlocked window.  Returns the final state and the per-call
outcomes. -/
def run_trace {E : Type} [Inhabited V] (fnE : K → Except E V) :
    shared_lru_cache_using_std K V →
    List (Nat × K × (lru_cache_using_std K V → lru_cache_using_std K V)) →
    shared_lru_cache_using_std K V × List outcome
  | st, [] => (st, [])
  | st, step :: rest =>
      let r := shared_call fnE step.1 step.2.2 st step.2.1
      let rr := run_trace fnE r.2.2 rest
      (rr.1, r.2.1 :: rr.2)

/-- Number of fresh computations recorded in a list of outcomes. -/
def count_fresh (l : List outcome) : Nat :=
  l.countP (fun oc => match oc with | outcome.fresh => true | _ => false)

/- ---------- basic lemmas about the association-list map ---------- -/

theorem find_val_eq_none {l : List (K × V)} {k : K} :
    find_val l k = none ↔ k ∉ l.map Prod.fst := by
  induction l with
  | nil => simp [find_val]
  | cons p t ih =>
      by_cases h : p.1 = k
      · simp [find_val, h]
      · rw [List.map_cons]
        simp only [find_val, if_neg h, List.mem_cons, not_or]
        rw [ih]
        constructor
        · intro hn
          exact ⟨fun hk => h hk.symm, hn⟩
        · intro hn
          exact hn.2

theorem find_val_isSome {l : List (K × V)} {k : K} :
    (find_val l k).isSome = true ↔ k ∈ l.map Prod.fst := by
  cases hf : find_val l k with
  | none => simp [find_val_eq_none.mp hf]
  | some v =>
      have hne : ¬ (find_val l k = none) := by simp [hf]
      simp only [Option.isSome_some, true_iff]
      by_contra hk
      exact hne (find_val_eq_none.mpr hk)

theorem map_fst_erase_entry (l : List (K × V)) (k : K) :
    (erase_entry l k).map Prod.fst = (l.map Prod.fst).erase k := by
  induction l with
  | nil => simp [erase_entry]
  | cons p t ih =>
      by_cases h : p.1 = k
      · simp [erase_entry, h, List.erase_cons]
      · simp [erase_entry, h, List.erase_cons, ih]

theorem length_erase_entry_of_mem {l : List (K × V)} {k : K}
    (h : k ∈ l.map Prod.fst) :
    (erase_entry l k).length + 1 = l.length := by
  have hp : 0 < (l.map Prod.fst).length := List.length_pos_of_mem h
  have h1 : ((erase_entry l k).map Prod.fst).length + 1 =
      (l.map Prod.fst).length := by
    rw [map_fst_erase_entry, List.length_erase_of_mem h]
    omega
  simpa using h1

theorem evict_lru_cons {c : lru_cache_using_std K V} {f : K} {rest : List K}
    (ht : c.key_tracker = f :: rest) :
    c.evict_lru =
      { c with
        key_to_value := erase_entry c.key_to_value f
        key_tracker := rest } := by
  simp [lru_cache_using_std.evict_lru, ht]

theorem inv_insert {c : lru_cache_using_std K V} {k : K} {v : V}
    (hcap : 0 < c.capacity) (hinv : Inv c) (habs : c.has k = false) :
    Inv (c.insert k v) := by
  obtain ⟨hperm, hnd, hsz⟩ := hinv
  have hk_not : k ∉ keys c := by
    have : find_val c.key_to_value k = none := by
      cases hf : find_val c.key_to_value k with
      | none => rfl
      | some v => simp [lru_cache_using_std.has, hf] at habs
    exact find_val_eq_none.mp this
  by_cases hfull : c.is_full = true
  · -- the store is at capacity: the LRU entry is evicted first
    have hszf : c.capacity ≤ c.size := by
      simpa [lru_cache_using_std.is_full, decide_eq_true_eq] using hfull
    have hpos : 0 < c.size := lt_of_lt_of_le hcap hszf
    have hkeys_pos : 0 < (keys c).length := by
      simpa [keys, lru_cache_using_std.size] using hpos
    have htr_pos : 0 < c.key_tracker.length := by
      rw [hperm.length_eq]; exact hkeys_pos
    obtain ⟨f, rest, ht⟩ : ∃ f rest, c.key_tracker = f :: rest := by
      cases htt : c.key_tracker with
      | nil => rw [htt] at htr_pos; simp at htr_pos
      | cons f rest => exact ⟨f, rest, rfl⟩
    have hf_mem : f ∈ keys c := hperm.mem_iff.mp (by rw [ht]; exact List.mem_cons_self f rest)
    have hperm2 : rest.Perm ((keys c).erase f) := by
      have h1 : (c.key_tracker.erase f).Perm ((keys c).erase f) := hperm.erase f
      rw [ht, List.erase_cons_head] at h1
      exact h1
    have hkeys2 : keys (c.evict_lru) = (keys c).erase f := by
      rw [evict_lru_cons ht]
      simpa [keys] using map_fst_erase_entry c.key_to_value f
    have hlen2 : (c.evict_lru).size + 1 = c.size := by
      rw [evict_lru_cons ht]
      exact length_erase_entry_of_mem hf_mem
    refine ⟨?_, ?_, ?_⟩
    · -- permutation after evicting and appending
      show ((if c.is_full then c.evict_lru else c).key_tracker ++ [k]).Perm
        ((((if c.is_full then c.evict_lru else c).key_to_value) ++ [(k, v)]).map Prod.fst)
      rw [if_pos hfull, evict_lru_cons ht]
      simp only [List.map_append, List.map_cons, List.map_nil]
      have : ((erase_entry c.key_to_value f).map Prod.fst) = (keys c).erase f :=
        map_fst_erase_entry c.key_to_value f
      rw [this]
      exact hperm2.append (List.Perm.refl [k])
    · show ((((if c.is_full then c.evict_lru else c).key_to_value) ++ [(k, v)]).map Prod.fst).Nodup
      rw [if_pos hfull, evict_lru_cons ht]
      simp only [List.map_append, List.map_cons, List.map_nil]
      rw [map_fst_erase_entry c.key_to_value f]
      rw [List.nodup_append]
      refine ⟨hnd.erase f, List.nodup_singleton k, ?_⟩
      intro a ha hb
      rcases List.mem_singleton.mp hb with rfl
      exact hk_not (List.mem_of_mem_erase ha)
    · show (((if c.is_full then c.evict_lru else c).key_to_value) ++ [(k, v)]).length ≤
        (if c.is_full then c.evict_lru else c).capacity
      rw [if_pos hfull, evict_lru_cons ht]
      show (erase_entry c.key_to_value f ++ [(k, v)]).length ≤ c.capacity
      simp only [List.length_append, List.length_cons, List.length_nil]
      have h1 : (erase_entry c.key_to_value f).length + 1 = c.size :=
        length_erase_entry_of_mem hf_mem
      simp only [lru_cache_using_std.size] at h1 hsz
      omega
  · -- not full: just append
    have hszlt : c.size < c.capacity := by
      by_contra hge
      exact hfull (by simp [lru_cache_using_std.is_full, decide_eq_true_eq]; omega)
    refine ⟨?_, ?_, ?_⟩
    · show ((if c.is_full then c.evict_lru else c).key_tracker ++ [k]).Perm
        ((((if c.is_full then c.evict_lru else c).key_to_value) ++ [(k, v)]).map Prod.fst)
      rw [if_neg hfull]
      simp only [List.map_append, List.map_cons, List.map_nil]
      exact hperm.append (List.Perm.refl [k])
    · show ((((if c.is_full then c.evict_lru else c).key_to_value) ++ [(k, v)]).map Prod.fst).Nodup
      rw [if_neg hfull]
      simp only [List.map_append, List.map_cons, List.map_nil]
      rw [List.nodup_append]
      refine ⟨hnd, List.nodup_singleton k, ?_⟩
      intro a ha hb
      rcases List.mem_singleton.mp hb with rfl
      exact hk_not ha
    · show (((if c.is_full then c.evict_lru else c).key_to_value) ++ [(k, v)]).length ≤
        (if c.is_full then c.evict_lru else c).capacity
      rw [if_neg hfull]
      simp only [List.length_append, List.length_cons, List.length_nil]
      simp only [lru_cache_using_std.size] at hszlt
      omega

theorem has_iff_mem_keys {c : lru_cache_using_std K V} {k : K} :
    c.has k = true ↔ k ∈ keys c :=
  find_val_isSome

theorem has_eq_false_iff {c : lru_cache_using_std K V} {k : K} :
    c.has k = false ↔ k ∉ keys c := by
  rw [← has_iff_mem_keys]
  cases c.has k <;> simp

theorem inv_call {c : lru_cache_using_std K V} (fn : K → V) (k : K)
    (hcap : 0 < c.capacity) (hinv : Inv c) :
    Inv (lru_cache_using_std.call fn c k).2 := by
  obtain ⟨hperm, hnd, hsz⟩ := hinv
  cases hf : find_val c.key_to_value k with
  | none =>
      have habs : c.has k = false := by simp [lru_cache_using_std.has, hf]
      simpa [lru_cache_using_std.call, hf] using
        inv_insert hcap ⟨hperm, hnd, hsz⟩ habs
  | some v =>
      have hstate : (lru_cache_using_std.call fn c k).2 =
          { c with key_tracker := c.key_tracker.erase k ++ [k] } := by
        simp [lru_cache_using_std.call, hf]
      have hk_mem : k ∈ keys c :=
        find_val_isSome.mp (by simp [hf])
      have hk_tr : k ∈ c.key_tracker := hperm.mem_iff.mpr hk_mem
      rw [hstate]
      refine ⟨?_, ?_, ?_⟩
      · show (c.key_tracker.erase k ++ [k]).Perm (keys c)
        have h1 : (c.key_tracker.erase k ++ [k]).Perm (k :: c.key_tracker.erase k) :=
          List.perm_append_singleton k (c.key_tracker.erase k)
        have h2 : (k :: c.key_tracker.erase k).Perm c.key_tracker :=
          (List.perm_cons_erase hk_tr).symm
        exact (h1.trans h2).trans hperm
      · exact hnd
      · exact hsz

theorem inv_set {c : lru_cache_using_std K V} (k : K) (v : V)
    (hcap : 0 < c.capacity) (hinv : Inv c) :
    Inv (c.set k v) := by
  cases hf : find_val c.key_to_value k with
  | none =>
      have habs : c.has k = false := by simp [lru_cache_using_std.has, hf]
      simpa [lru_cache_using_std.set, hf] using inv_insert hcap hinv habs
  | some v0 => simpa [lru_cache_using_std.set, hf] using hinv

theorem inv_evict {c : lru_cache_using_std K V} (k : K) (hinv : Inv c) :
    Inv (c.evict k) := by
  obtain ⟨hperm, hnd, hsz⟩ := hinv
  by_cases hf : (find_val c.key_to_value k).isSome = true
  · have hk_mem : k ∈ keys c := find_val_isSome.mp hf
    have hstate : c.evict k =
        { c with
          key_to_value := erase_entry c.key_to_value k
          key_tracker := c.key_tracker.erase k } := by
      simp [lru_cache_using_std.evict, hf]
    rw [hstate]
    refine ⟨?_, ?_, ?_⟩
    · show (c.key_tracker.erase k).Perm ((erase_entry c.key_to_value k).map Prod.fst)
      rw [map_fst_erase_entry]
      exact hperm.erase k
    · show ((erase_entry c.key_to_value k).map Prod.fst).Nodup
      rw [map_fst_erase_entry]
      exact hnd.erase k
    · show (erase_entry c.key_to_value k).length ≤ c.capacity
      have h3 : (erase_entry c.key_to_value k).length + 1 = c.key_to_value.length :=
        length_erase_entry_of_mem hk_mem
      simp only [lru_cache_using_std.size] at hsz
      omega
  · have hf2 : (find_val c.key_to_value k).isSome = false := by
      cases h : (find_val c.key_to_value k).isSome
      · rfl
      · exact absurd h hf
    simpa [lru_cache_using_std.evict, hf2] using And.intro hperm (And.intro hnd hsz)

theorem capacity_insert (c : lru_cache_using_std K V) (k : K) (v : V) :
    (c.insert k v).capacity = c.capacity := by
  by_cases hfull : c.is_full = true
  · cases ht : c.key_tracker with
    | nil => simp [lru_cache_using_std.insert, hfull, lru_cache_using_std.evict_lru, ht]
    | cons f rest => simp [lru_cache_using_std.insert, hfull, evict_lru_cons ht]
  · simp [lru_cache_using_std.insert, hfull]

theorem capacity_applyOp (fn : K → V) (c : lru_cache_using_std K V) (op : Op K V) :
    (applyOp fn c op).capacity = c.capacity := by
  cases op with
  | get k =>
      cases hf : find_val c.key_to_value k with
      | none => simp [applyOp, lru_cache_using_std.call, hf, capacity_insert]
      | some v => simp [applyOp, lru_cache_using_std.call, hf]
  | set k v =>
      cases hf : find_val c.key_to_value k with
      | none => simp [applyOp, lru_cache_using_std.set, hf, capacity_insert]
      | some v0 => simp [applyOp, lru_cache_using_std.set, hf]
  | evict k =>
      by_cases hf : (find_val c.key_to_value k).isSome = true
      · simp [applyOp, lru_cache_using_std.evict, hf]
      · simp [applyOp, lru_cache_using_std.evict, hf]
  | has k => rfl
  | is_full => rfl

theorem inv_applyOp {c : lru_cache_using_std K V} (fn : K → V) (op : Op K V)
    (hcap : 0 < c.capacity) (hinv : Inv c) :
    Inv (applyOp fn c op) := by
  cases op with
  | get k => exact inv_call fn k hcap hinv
  | set k v => exact inv_set k v hcap hinv
  | evict k => exact inv_evict k hinv
  | has k => exact hinv
  | is_full => exact hinv

theorem capacity_runOps (fn : K → V) (c : lru_cache_using_std K V)
    (ops : List (Op K V)) : (runOps fn c ops).capacity = c.capacity := by
  induction ops generalizing c with
  | nil => rfl
  | cons op ops ih => rw [runOps, ih, capacity_applyOp]

theorem inv_runOps {c : lru_cache_using_std K V} (fn : K → V)
    (ops : List (Op K V)) (hcap : 0 < c.capacity) (hinv : Inv c) :
    Inv (runOps fn c ops) := by
  induction ops generalizing c with
  | nil => exact hinv
  | cons op ops ih =>
      rw [runOps]
      exact ih (by rw [capacity_applyOp]; exact hcap) (inv_applyOp fn op hcap hinv)

theorem find_val_append (l₁ l₂ : List (K × V)) (k : K) :
    find_val (l₁ ++ l₂) k =
      (find_val l₁ k).elim (find_val l₂ k) some := by
  induction l₁ with
  | nil => simp [find_val]
  | cons p t ih =>
      by_cases h : p.1 = k
      · simp [find_val, h]
      · simp [find_val, h, ih]

theorem call_fn_irrelevant_of_has {c : lru_cache_using_std K V} {k : K}
    (h : c.has k = true) (fn fn2 : K → V) :
    lru_cache_using_std.call fn c k = lru_cache_using_std.call fn2 c k := by
  cases hf : find_val c.key_to_value k with
  | none => simp [lru_cache_using_std.has, hf] at h
  | some v => simp [lru_cache_using_std.call, hf]

/- ---------- lemmas about one shared-cache call ---------- -/

theorem shared_call_calls {E : Type} [Inhabited V] (fnE : K → Except E V)
    (tid : Nat) (interim : lru_cache_using_std K V → lru_cache_using_std K V)
    (st : shared_lru_cache_using_std K V) (k : K) :
    (shared_call fnE tid interim st k).2.2.hit_rate.calls
      = st.hit_rate.calls + 1 := by
  by_cases h1 : st.underlying_lru_cache.has k = true
  · simp [shared_call, h1]
  · by_cases h2 : (interim st.underlying_lru_cache).has k = true
    · simp [shared_call, h1, h2]
    · cases hE : fnE k with
      | error e => simp [shared_call, h1, h2, hE]
      | ok v => simp [shared_call, h1, h2, hE]

theorem count_fresh_cons (oc : outcome) (l : List outcome) :
    count_fresh (oc :: l) = count_fresh [oc] + count_fresh l := by
  cases oc <;> simp [count_fresh, List.countP_cons, List.countP_nil] <;> omega

theorem shared_call_outcome_counters {E : Type} [Inhabited V]
    (fnE : K → Except E V) (tid : Nat)
    (interim : lru_cache_using_std K V → lru_cache_using_std K V)
    (st : shared_lru_cache_using_std K V) (k : K)
    (hok : ∃ v, fnE k = Except.ok v) :
    (shared_call fnE tid interim st k).2.2.hit_rate.hits
      + (shared_call fnE tid interim st k).2.2.hit_rate.late_hits
      + count_fresh [(shared_call fnE tid interim st k).2.1]
      = st.hit_rate.hits + st.hit_rate.late_hits + 1 := by
  by_cases h1 : st.underlying_lru_cache.has k = true
  · simp [shared_call, h1, count_fresh, List.countP, List.countP.go]
    omega
  · by_cases h2 : (interim st.underlying_lru_cache).has k = true
    · simp [shared_call, h1, h2, count_fresh, List.countP, List.countP.go]
      omega
    · obtain ⟨v, hE⟩ := hok
      simp [shared_call, h1, h2, hE, count_fresh, List.countP, List.countP.go]

theorem shared_call_mono {E : Type} [Inhabited V] (fnE : K → Except E V)
    (tid : Nat) (interim : lru_cache_using_std K V → lru_cache_using_std K V)
    (st : shared_lru_cache_using_std K V) (k : K) :
    st.hit_rate.calls ≤ (shared_call fnE tid interim st k).2.2.hit_rate.calls ∧
    st.hit_rate.hits ≤ (shared_call fnE tid interim st k).2.2.hit_rate.hits ∧
    st.hit_rate.late_hits
      ≤ (shared_call fnE tid interim st k).2.2.hit_rate.late_hits := by
  by_cases h1 : st.underlying_lru_cache.has k = true
  · refine ⟨?_, ?_, ?_⟩ <;> simp [shared_call, h1]
  · by_cases h2 : (interim st.underlying_lru_cache).has k = true
    · refine ⟨?_, ?_, ?_⟩ <;> simp [shared_call, h1, h2]
    · cases hE : fnE k with
      | error e => refine ⟨?_, ?_, ?_⟩ <;> simp [shared_call, h1, h2, hE]
      | ok v => refine ⟨?_, ?_, ?_⟩ <;> simp [shared_call, h1, h2, hE]

/- ---------- lemmas about traces of shared-cache calls ---------- -/

theorem run_trace_calls {E : Type} [Inhabited V] (fnE : K → Except E V)
    (trace : List (Nat × K × (lru_cache_using_std K V → lru_cache_using_std K V)))
    (st : shared_lru_cache_using_std K V) :
    (run_trace fnE st trace).1.hit_rate.calls
      = st.hit_rate.calls + trace.length := by
  induction trace generalizing st with
  | nil => simp [run_trace]
  | cons step rest ih =>
      show (run_trace fnE (shared_call fnE step.1 step.2.2 st step.2.1).2.2 rest).1.hit_rate.calls
        = st.hit_rate.calls + (step :: rest).length
      rw [ih, shared_call_calls]
      simp
      omega

theorem run_trace_hits_late_fresh {E : Type} [Inhabited V]
    (fnE : K → Except E V)
    (hok : ∀ k, ∃ v, fnE k = Except.ok v)
    (trace : List (Nat × K × (lru_cache_using_std K V → lru_cache_using_std K V)))
    (st : shared_lru_cache_using_std K V) :
    (run_trace fnE st trace).1.hit_rate.hits
      + (run_trace fnE st trace).1.hit_rate.late_hits
      + count_fresh (run_trace fnE st trace).2
      = st.hit_rate.hits + st.hit_rate.late_hits + trace.length := by
  induction trace generalizing st with
  | nil => simp [run_trace, count_fresh, List.countP_nil]
  | cons step rest ih =>
      have hstep := shared_call_outcome_counters fnE step.1 step.2.2 st step.2.1
        (hok step.2.1)
      have hrest := ih (shared_call fnE step.1 step.2.2 st step.2.1).2.2
      show (run_trace fnE (shared_call fnE step.1 step.2.2 st step.2.1).2.2 rest).1.hit_rate.hits
          + (run_trace fnE (shared_call fnE step.1 step.2.2 st step.2.1).2.2 rest).1.hit_rate.late_hits
          + count_fresh ((shared_call fnE step.1 step.2.2 st step.2.1).2.1
              :: (run_trace fnE (shared_call fnE step.1 step.2.2 st step.2.1).2.2 rest).2)
        = st.hit_rate.hits + st.hit_rate.late_hits + (step :: rest).length
      rw [count_fresh_cons]
      simp only [List.length_cons]
      omega

theorem run_trace_append {E : Type} [Inhabited V] (fnE : K → Except E V)
    (t1 t2 : List (Nat × K × (lru_cache_using_std K V → lru_cache_using_std K V)))
    (st : shared_lru_cache_using_std K V) :
    (run_trace fnE st (t1 ++ t2)).1
      = (run_trace fnE (run_trace fnE st t1).1 t2).1 := by
  induction t1 generalizing st with
  | nil => simp [run_trace]
  | cons step rest ih =>
      show (run_trace fnE (shared_call fnE step.1 step.2.2 st step.2.1).2.2 (rest ++ t2)).1
        = (run_trace fnE (run_trace fnE (shared_call fnE step.1 step.2.2 st step.2.1).2.2 rest).1 t2).1
      exact ih _

theorem run_trace_mono {E : Type} [Inhabited V] (fnE : K → Except E V)
    (trace : List (Nat × K × (lru_cache_using_std K V → lru_cache_using_std K V)))
    (st : shared_lru_cache_using_std K V) :
    st.hit_rate.calls ≤ (run_trace fnE st trace).1.hit_rate.calls ∧
    st.hit_rate.hits ≤ (run_trace fnE st trace).1.hit_rate.hits ∧
    st.hit_rate.late_hits ≤ (run_trace fnE st trace).1.hit_rate.late_hits := by
  induction trace generalizing st with
  | nil => exact ⟨le_refl _, le_refl _, le_refl _⟩
  | cons step rest ih =>
      have h1 := shared_call_mono fnE step.1 step.2.2 st step.2.1
      have h2 := ih (shared_call fnE step.1 step.2.2 st step.2.1).2.2
      refine ⟨?_, ?_, ?_⟩
      · exact le_trans h1.1 h2.1
      · exact le_trans h1.2.1 h2.2.1
      · exact le_trans h1.2.2 h2.2.2


/- ---------- claim theorems ---------- -/

/-- C2: `operator()` (get_or_compute).  On a present key it returns the
stored value, does not consult the compute function (the result is the
same for any function), splices the key to the most-recent end of the
tracker and leaves the map untouched.  On an absent key it invokes the
compute function on `k`, first evicts the current least-recently-used
entry when the store is at capacity, records `k` as most recent together
with the freshly computed value, and returns that value. -/
theorem C2_get_or_compute (fn fn2 : K → V) (c : lru_cache_using_std K V) (k : K) :
    (c.has k = true →
      find_val c.key_to_value k = some ((lru_cache_using_std.call fn c k).1) ∧
      lru_cache_using_std.call fn c k = lru_cache_using_std.call fn2 c k ∧
      (lru_cache_using_std.call fn c k).2.key_tracker = c.key_tracker.erase k ++ [k] ∧
      (lru_cache_using_std.call fn c k).2.key_to_value = c.key_to_value) ∧
    (c.has k = false →
      (lru_cache_using_std.call fn c k).1 = fn k ∧
      (lru_cache_using_std.call fn c k).2 =
        { capacity := (if c.is_full then c.evict_lru else c).capacity
          key_tracker := (if c.is_full then c.evict_lru else c).key_tracker ++ [k]
          key_to_value :=
            (if c.is_full then c.evict_lru else c).key_to_value ++ [(k, fn k)] }) := by
  constructor
  · intro hhit
    cases hf : find_val c.key_to_value k with
    | none => simp [lru_cache_using_std.has, hf] at hhit
    | some v =>
        refine ⟨?_, ?_, ?_, ?_⟩ <;> simp [lru_cache_using_std.call, hf]
  · intro hmiss
    have hf : find_val c.key_to_value k = none :=
      find_val_eq_none.mpr (has_eq_false_iff.mp hmiss)
    refine ⟨?_, ?_⟩ <;>
      simp [lru_cache_using_std.call, hf, lru_cache_using_std.insert]

/-- Witness for C2: a store of capacity 2 holding key 1; a hit on key 1
keeps the tracker at `[1]`, and a miss on key 5 returns the computed
value 15. -/
theorem C2_get_or_compute_witness :
    ((lru_cache_using_std.call (fun x => x + 10)
        ({ capacity := 2, key_tracker := [1], key_to_value := [(1, 11)] } :
          lru_cache_using_std Nat Nat) 1).2.key_tracker = [1]) ∧
    ((lru_cache_using_std.call (fun x => x + 10)
        ({ capacity := 2, key_tracker := [1], key_to_value := [(1, 11)] } :
          lru_cache_using_std Nat Nat) 5).1 = 15) := by
  constructor
  · have h := (C2_get_or_compute (fun x => x + 10) (fun x => x + 20)
      ({ capacity := 2, key_tracker := [1], key_to_value := [(1, 11)] } :
        lru_cache_using_std Nat Nat) 1).1 (by decide)
    exact h.2.2.1.trans (by decide)
  · have h := (C2_get_or_compute (fun x => x + 10) (fun x => x + 20)
      ({ capacity := 2, key_tracker := [1], key_to_value := [(1, 11)] } :
        lru_cache_using_std Nat Nat) 5).2 (by decide)
    exact h.1.trans rfl

/-- C6: `set` (put_if_absent) inserts only when the key is absent; on a
present key it is a silent no-op returning a completely unchanged store
(value, recency order and size included).  The statement is parametric
in an arbitrary value type `V` with no equality constraint on it. -/
theorem C6_put_if_absent (c : lru_cache_using_std K V) (k : K) (v : V) :
    (c.has k = true → c.set k v = c) ∧
    (c.has k = false → c.set k v = c.insert k v) := by
  constructor
  · intro h
    cases hf : find_val c.key_to_value k with
    | none => simp [lru_cache_using_std.has, hf] at h
    | some v0 => simp [lru_cache_using_std.set, hf]
  · intro h
    have hf : find_val c.key_to_value k = none :=
      find_val_eq_none.mpr (has_eq_false_iff.mp h)
    simp [lru_cache_using_std.set, hf]

/-- Witness for C6: setting present key 1 leaves the concrete store
unchanged; setting absent key 5 performs the insertion. -/
theorem C6_put_if_absent_witness :
    (({ capacity := 2, key_tracker := [1], key_to_value := [(1, 11)] } :
        lru_cache_using_std Nat Nat).set 1 99 =
      ({ capacity := 2, key_tracker := [1], key_to_value := [(1, 11)] } :
        lru_cache_using_std Nat Nat)) ∧
    (({ capacity := 2, key_tracker := [1], key_to_value := [(1, 11)] } :
        lru_cache_using_std Nat Nat).set 5 7 =
      ({ capacity := 2, key_tracker := [1], key_to_value := [(1, 11)] } :
        lru_cache_using_std Nat Nat).insert 5 7) :=
  ⟨(C6_put_if_absent _ 1 99).1 (by decide),
   (C6_put_if_absent _ 5 7).2 (by decide)⟩

/-- C8: construction with capacity zero is rejected (the constructor
asserts `_capacity != 0`), while any positive capacity yields an empty
store with that capacity. -/
theorem C8_zero_capacity (f : K → V) (cap : Nat) :
    (lru_make f 0 = (none : Option (lru_cache_using_std K V))) ∧
    (0 < cap → ∃ st, lru_make f cap = some st ∧ st.capacity = cap ∧ st.size = 0) := by
  constructor
  · simp [lru_make]
  · intro h
    have hne : cap ≠ 0 := Nat.pos_iff_ne_zero.mp h
    exact ⟨{ capacity := cap, key_tracker := [], key_to_value := [] },
      by simp [lru_make, hne], rfl, rfl⟩

/-- Witness for C8 at capacity 3. -/
theorem C8_zero_capacity_witness :
    (lru_make (fun x => x) 0 = (none : Option (lru_cache_using_std Nat Nat))) ∧
    (∃ st, lru_make (fun x : Nat => x) 3 = some st ∧
      st.capacity = 3 ∧ st.size = 0) :=
  ⟨(C8_zero_capacity (fun x => x) 3).1,
   (C8_zero_capacity (fun x => x) 3).2 (by decide)⟩

/-- C9: `has` (contains) reports exactly whether the key is present in
the map and, being a `const` member, mutates nothing: as an operation of
the store it returns the state unchanged. -/
theorem C9_has_no_mutation (fn : K → V) (c : lru_cache_using_std K V) (k : K) :
    (c.has k = true ↔ k ∈ keys c) ∧
    applyOp fn c (Op.has k) = c :=
  ⟨has_iff_mem_keys, rfl⟩

/-- C3: starting from an empty store with positive capacity, after any
sequence of operations the tracker is a permutation of the map's keys
(each key has exactly one node in either structure, so the two are in
bijection), both key lists are duplicate-free, both sizes are equal, and
the size never exceeds the capacity. -/
theorem C3_bijection_capacity (fn : K → V) (cap : Nat) (hcap : 0 < cap)
    (ops : List (Op K V)) :
    (runOps fn (lru_empty cap) ops).key_tracker.Perm
      (keys (runOps fn (lru_empty cap) ops)) ∧
    (keys (runOps fn (lru_empty cap) ops)).Nodup ∧
    (runOps fn (lru_empty cap) ops).key_tracker.Nodup ∧
    (runOps fn (lru_empty cap) ops).key_tracker.length
      = (runOps fn (lru_empty cap) ops).size ∧
    (runOps fn (lru_empty cap) ops).size ≤ cap := by
  have hinv : Inv (runOps fn (lru_empty cap) ops) := by
    apply inv_runOps fn ops
    · simpa [lru_empty] using hcap
    · exact ⟨by simp [lru_empty, keys], by simp [lru_empty, keys],
        by simp [lru_empty, lru_cache_using_std.size]⟩
  obtain ⟨hperm, hnd, hsz⟩ := hinv
  have hcapeq : (runOps fn (lru_empty cap) ops).capacity = cap := by
    simpa [lru_empty] using capacity_runOps fn (lru_empty cap) ops
  refine ⟨hperm, hnd, (hperm.nodup_iff).mpr hnd, ?_, ?_⟩
  · simpa [keys, lru_cache_using_std.size] using hperm.length_eq
  · exact le_trans hsz (le_of_eq hcapeq)

/-- Witness for C3 on a concrete sequence of six operations at
capacity 2. -/
theorem C3_bijection_capacity_witness :
    (runOps (fun x : Nat => x + 1) (lru_empty 2)
        [Op.get 1, Op.set 2 5, Op.get 3, Op.evict 1, Op.has 3,
          Op.is_full]).key_tracker.Perm
      (keys (runOps (fun x : Nat => x + 1) (lru_empty 2)
        [Op.get 1, Op.set 2 5, Op.get 3, Op.evict 1, Op.has 3,
          Op.is_full])) ∧
    (keys (runOps (fun x : Nat => x + 1) (lru_empty 2)
        [Op.get 1, Op.set 2 5, Op.get 3, Op.evict 1, Op.has 3,
          Op.is_full])).Nodup ∧
    (runOps (fun x : Nat => x + 1) (lru_empty 2)
        [Op.get 1, Op.set 2 5, Op.get 3, Op.evict 1, Op.has 3,
          Op.is_full]).key_tracker.Nodup ∧
    (runOps (fun x : Nat => x + 1) (lru_empty 2)
        [Op.get 1, Op.set 2 5, Op.get 3, Op.evict 1, Op.has 3,
          Op.is_full]).key_tracker.length
      = (runOps (fun x : Nat => x + 1) (lru_empty 2)
        [Op.get 1, Op.set 2 5, Op.get 3, Op.evict 1, Op.has 3,
          Op.is_full]).size ∧
    (runOps (fun x : Nat => x + 1) (lru_empty 2)
        [Op.get 1, Op.set 2 5, Op.get 3, Op.evict 1, Op.has 3,
          Op.is_full]).size ≤ 2 :=
  C3_bijection_capacity (fun x : Nat => x + 1) 2 (by decide)
    [Op.get 1, Op.set 2 5, Op.get 3, Op.evict 1, Op.has 3, Op.is_full]

/-- C5: with capacity 2 and distinct keys a, b, c accessed in the order
a, b, a, c, the final store holds exactly keys a and c (b was evicted as
least recently used, a having been refreshed to most recent before c's
insertion), with recency order a then c. -/
theorem C5_recency_abac (fn : K → V) (a b c2 : K)
    (hab : a ≠ b) (hac : a ≠ c2) (hbc : b ≠ c2) :
    (runOps fn (lru_empty 2)
      [Op.get a, Op.get b, Op.get a, Op.get c2]).key_tracker = [a, c2] ∧
    keys (runOps fn (lru_empty 2)
      [Op.get a, Op.get b, Op.get a, Op.get c2]) = [a, c2] ∧
    (runOps fn (lru_empty 2)
      [Op.get a, Op.get b, Op.get a, Op.get c2]).has b = false := by
  have h1 : runOps fn (lru_empty 2)
      [Op.get a, Op.get b, Op.get a, Op.get c2] =
      { capacity := 2, key_tracker := [a, c2]
        key_to_value := [(a, fn a), (c2, fn c2)] } := by
    simp [runOps, applyOp, lru_cache_using_std.call,
      lru_cache_using_std.insert, lru_cache_using_std.is_full,
      lru_cache_using_std.evict_lru, lru_cache_using_std.size,
      find_val, erase_entry, lru_empty, hab, hac, hbc,
      List.erase_cons]
  rw [h1]
  refine ⟨rfl, by simp [keys], ?_⟩
  simp [lru_cache_using_std.has, find_val, hab, Ne.symm hbc]

/-- Witness for C5 with the concrete distinct keys 0, 1, 2. -/
theorem C5_recency_abac_witness :
    (runOps (fun x : Nat => x) (lru_empty 2)
      [Op.get 0, Op.get 1, Op.get 0, Op.get 2]).key_tracker = [0, 2] ∧
    keys (runOps (fun x : Nat => x) (lru_empty 2)
      [Op.get 0, Op.get 1, Op.get 0, Op.get 2]) = [0, 2] ∧
    (runOps (fun x : Nat => x) (lru_empty 2)
      [Op.get 0, Op.get 1, Op.get 0, Op.get 2]).has 1 = false :=
  C5_recency_abac (fun x : Nat => x) 0 1 2 (by decide) (by decide) (by decide)

/-- C7: explicit `evict(key)` on a present key removes the entry from
both the map and the recency list and shrinks the size by one, and a
subsequent `operator()` for that key is a miss that invokes the compute
function again; on an absent key it is a no-op leaving the store
unchanged. -/
theorem C7_evict_key (fn : K → V) (c : lru_cache_using_std K V) (k : K)
    (hinv : Inv c) :
    (c.has k = true →
      (c.evict k).has k = false ∧
      k ∉ (c.evict k).key_tracker ∧
      (c.evict k).size + 1 = c.size ∧
      (lru_cache_using_std.call fn (c.evict k) k).1 = fn k ∧
      (lru_cache_using_std.call fn (c.evict k) k).2
        = (c.evict k).insert k (fn k)) ∧
    (c.has k = false → c.evict k = c) := by
  obtain ⟨hperm, hnd, hsz⟩ := hinv
  constructor
  · intro h
    have hf : (find_val c.key_to_value k).isSome = true := h
    have hk_mem : k ∈ keys c := find_val_isSome.mp hf
    have hstate : c.evict k =
        { c with
          key_to_value := erase_entry c.key_to_value k
          key_tracker := c.key_tracker.erase k } := by
      simp [lru_cache_using_std.evict, hf]
    have hkeys : keys (c.evict k) = (keys c).erase k := by
      rw [hstate]
      exact map_fst_erase_entry c.key_to_value k
    have hnew : (c.evict k).has k = false := by
      rw [has_eq_false_iff, hkeys]
      intro hmem
      exact ((hnd.mem_erase_iff).mp hmem).1 rfl
    have htnd : c.key_tracker.Nodup := (hperm.nodup_iff).mpr hnd
    have hnotr : k ∉ (c.evict k).key_tracker := by
      rw [hstate]
      intro hmem
      exact ((htnd.mem_erase_iff).mp hmem).1 rfl
    have hfn : find_val (c.evict k).key_to_value k = none :=
      find_val_eq_none.mpr (has_eq_false_iff.mp hnew)
    refine ⟨hnew, hnotr, ?_, ?_, ?_⟩
    · rw [hstate]
      exact length_erase_entry_of_mem hk_mem
    · simp [lru_cache_using_std.call, hfn]
    · simp [lru_cache_using_std.call, hfn]
  · intro h
    have hf2 : (find_val c.key_to_value k).isSome = false := h
    simp [lru_cache_using_std.evict, hf2]

/-- Witness for C7: evicting present key 1 from a concrete two-element
store makes it absent, and evicting absent key 5 changes nothing. -/
theorem C7_evict_key_witness :
    ((({ capacity := 2, key_tracker := [1, 2]
         key_to_value := [(1, 11), (2, 22)] } :
        lru_cache_using_std Nat Nat).evict 1).has 1 = false) ∧
    (({ capacity := 2, key_tracker := [1, 2]
        key_to_value := [(1, 11), (2, 22)] } :
        lru_cache_using_std Nat Nat).evict 5 =
      ({ capacity := 2, key_tracker := [1, 2]
         key_to_value := [(1, 11), (2, 22)] } :
        lru_cache_using_std Nat Nat)) :=
  ⟨((C7_evict_key (fun x => x)
      ({ capacity := 2, key_tracker := [1, 2]
         key_to_value := [(1, 11), (2, 22)] } :
        lru_cache_using_std Nat Nat) 1
      ⟨by decide, by decide, by decide⟩).1 (by decide)).1,
   (C7_evict_key (fun x => x)
      ({ capacity := 2, key_tracker := [1, 2]
         key_to_value := [(1, 11), (2, 22)] } :
        lru_cache_using_std Nat Nat) 5
      ⟨by decide, by decide, by decide⟩).2 (by decide)⟩

/-- C10: on a full store, `set` (put_if_absent) of an absent key first
evicts the least-recently-used entry (the tracker front) and then
inserts the new key as most recent: the old front key becomes absent,
the new key becomes present and last in the tracker, and the size stays
at its old value (the capacity). -/
theorem C10_set_on_full_evicts (c : lru_cache_using_std K V) (k : K) (v : V)
    (hinv : Inv c) (hcap : 0 < c.capacity)
    (habs : c.has k = false) (hfull : c.is_full = true) :
    ∃ f rest, c.key_tracker = f :: rest ∧
      (c.set k v).key_tracker = rest ++ [k] ∧
      (c.set k v).has f = false ∧
      (c.set k v).has k = true ∧
      (c.set k v).size = c.size := by
  obtain ⟨hperm, hnd, hsz⟩ := hinv
  have hk_not : k ∉ keys c := has_eq_false_iff.mp habs
  have hf0 : find_val c.key_to_value k = none := find_val_eq_none.mpr hk_not
  have hszf : c.capacity ≤ c.size := by
    simpa [lru_cache_using_std.is_full, decide_eq_true_eq] using hfull
  have hpos : 0 < c.size := lt_of_lt_of_le hcap hszf
  have htr_pos : 0 < c.key_tracker.length := by
    rw [hperm.length_eq]
    simpa [keys, lru_cache_using_std.size] using hpos
  obtain ⟨f, rest, ht⟩ : ∃ f rest, c.key_tracker = f :: rest := by
    cases htt : c.key_tracker with
    | nil => rw [htt] at htr_pos; simp at htr_pos
    | cons f rest => exact ⟨f, rest, rfl⟩
  have hf_mem : f ∈ keys c :=
    hperm.mem_iff.mp (by rw [ht]; exact List.mem_cons_self f rest)
  have hset : c.set k v = c.insert k v := by
    simp [lru_cache_using_std.set, hf0]
  have hins : c.insert k v =
      { capacity := c.capacity
        key_tracker := rest ++ [k]
        key_to_value := erase_entry c.key_to_value f ++ [(k, v)] } := by
    simp [lru_cache_using_std.insert, hfull, evict_lru_cons ht]
  have hkf : k ≠ f := fun he => hk_not (he ▸ hf_mem)
  refine ⟨f, rest, ht, ?_, ?_, ?_, ?_⟩
  · rw [hset, hins]
  · rw [hset, hins]
    show (find_val (erase_entry c.key_to_value f ++ [(k, v)]) f).isSome = false
    rw [find_val_append]
    have h1 : find_val (erase_entry c.key_to_value f) f = none := by
      rw [find_val_eq_none, map_fst_erase_entry]
      intro hmem
      exact ((hnd.mem_erase_iff).mp hmem).1 rfl
    rw [h1]
    simp [find_val, hkf]
  · rw [hset, hins]
    show (find_val (erase_entry c.key_to_value f ++ [(k, v)]) k).isSome = true
    rw [find_val_append]
    have h1 : find_val (erase_entry c.key_to_value f) k = none := by
      rw [find_val_eq_none, map_fst_erase_entry]
      intro hmem
      exact hk_not (List.mem_of_mem_erase hmem)
    rw [h1]
    simp [find_val]
  · rw [hset, hins]
    show (erase_entry c.key_to_value f ++ [(k, v)]).length = c.size
    have h2 : (erase_entry c.key_to_value f).length + 1 = c.size :=
      length_erase_entry_of_mem hf_mem
    rw [List.length_append]
    simpa using h2

/-- Witness for C10: a full store of capacity 1 holding key 0; setting
absent key 1 evicts key 0 and installs key 1 as most recent. -/
theorem C10_set_on_full_evicts_witness :
    ∃ f rest,
      ({ capacity := 1, key_tracker := [0], key_to_value := [(0, 5)] } :
        lru_cache_using_std Nat Nat).key_tracker = f :: rest ∧
      (({ capacity := 1, key_tracker := [0], key_to_value := [(0, 5)] } :
        lru_cache_using_std Nat Nat).set 1 9).key_tracker = rest ++ [1] ∧
      (({ capacity := 1, key_tracker := [0], key_to_value := [(0, 5)] } :
        lru_cache_using_std Nat Nat).set 1 9).has f = false ∧
      (({ capacity := 1, key_tracker := [0], key_to_value := [(0, 5)] } :
        lru_cache_using_std Nat Nat).set 1 9).has 1 = true ∧
      (({ capacity := 1, key_tracker := [0], key_to_value := [(0, 5)] } :
        lru_cache_using_std Nat Nat).set 1 9).size =
      ({ capacity := 1, key_tracker := [0], key_to_value := [(0, 5)] } :
        lru_cache_using_std Nat Nat).size :=
  C10_set_on_full_evicts
    ({ capacity := 1, key_tracker := [0], key_to_value := [(0, 5)] } :
      lru_cache_using_std Nat Nat) 1 9
    ⟨by decide, by decide, by decide⟩ (by decide) (by decide) (by decide)

/-- C4: over any trace of completed `operator()` calls on the shared
cache (the compute function always succeeds, so every call completes),
the counters satisfy `calls = hits + late_hits + fresh computations`,
where a fresh computation is an invocation of the compute function whose
result was published; and along the trace every counter is monotonically
non-decreasing (any prefix's counters are bounded by the full trace's). -/
theorem C4_hit_rate_accounting {E : Type} [Inhabited V] (fnE : K → Except E V)
    (cap : Nat)
    (trace : List (Nat × K × (lru_cache_using_std K V → lru_cache_using_std K V)))
    (hok : ∀ k, ∃ v, fnE k = Except.ok v) :
    ((run_trace fnE (shared_make cap) trace).1.hit_rate.calls
      = (run_trace fnE (shared_make cap) trace).1.hit_rate.hits
        + (run_trace fnE (shared_make cap) trace).1.hit_rate.late_hits
        + count_fresh (run_trace fnE (shared_make cap) trace).2) ∧
    (∀ t1 t2, trace = t1 ++ t2 →
      (run_trace fnE (shared_make cap) t1).1.hit_rate.calls
        ≤ (run_trace fnE (shared_make cap) trace).1.hit_rate.calls ∧
      (run_trace fnE (shared_make cap) t1).1.hit_rate.hits
        ≤ (run_trace fnE (shared_make cap) trace).1.hit_rate.hits ∧
      (run_trace fnE (shared_make cap) t1).1.hit_rate.late_hits
        ≤ (run_trace fnE (shared_make cap) trace).1.hit_rate.late_hits) := by
  constructor
  · have h1 := run_trace_calls fnE trace (shared_make (K := K) (V := V) cap)
    have h2 := run_trace_hits_late_fresh fnE hok trace
      (shared_make (K := K) (V := V) cap)
    have e1 : (shared_make (K := K) (V := V) cap).hit_rate.calls = 0 := rfl
    have e2 : (shared_make (K := K) (V := V) cap).hit_rate.hits = 0 := rfl
    have e3 : (shared_make (K := K) (V := V) cap).hit_rate.late_hits = 0 := rfl
    rw [e1] at h1
    rw [e2, e3] at h2
    omega
  · intro t1 t2 hsplit
    subst hsplit
    rw [run_trace_append]
    exact run_trace_mono fnE t2 (run_trace fnE (shared_make cap) t1).1

/-- Witness for C4: two sequential calls for the same key 5 starting
from an empty shared cache of capacity 2 (first call computes freshly,
second is an immediate hit); the accounting identity and prefix
monotonicity hold at these concrete values. -/
theorem C4_hit_rate_accounting_witness :
    ((run_trace (fun k => (Except.ok k : Except Unit Nat))
        (shared_make 2) [(1, 5, id), (2, 5, id)]).1.hit_rate.calls
      = (run_trace (fun k => (Except.ok k : Except Unit Nat))
        (shared_make 2) [(1, 5, id), (2, 5, id)]).1.hit_rate.hits
        + (run_trace (fun k => (Except.ok k : Except Unit Nat))
          (shared_make 2) [(1, 5, id), (2, 5, id)]).1.hit_rate.late_hits
        + count_fresh (run_trace (fun k => (Except.ok k : Except Unit Nat))
          (shared_make 2) [(1, 5, id), (2, 5, id)]).2) ∧
    ((run_trace (fun k => (Except.ok k : Except Unit Nat))
        (shared_make 2) [(1, 5, id)]).1.hit_rate.calls
      ≤ (run_trace (fun k => (Except.ok k : Except Unit Nat))
        (shared_make 2) [(1, 5, id), (2, 5, id)]).1.hit_rate.calls) :=
  ⟨(C4_hit_rate_accounting (fun k => (Except.ok k : Except Unit Nat)) 2
      [(1, 5, id), (2, 5, id)] (fun k => ⟨k, rfl⟩)).1,
   ((C4_hit_rate_accounting (fun k => (Except.ok k : Except Unit Nat)) 2
      [(1, 5, id), (2, 5, id)] (fun k => ⟨k, rfl⟩)).2
      [(1, 5, id)] [(2, 5, id)] rfl).1⟩

/-- C1: a failing compute propagates to the caller and publishes no
entry, and a later request for the key by another thread does compute
freshly; but the source calls its cleanup lambda `done` only on the two
successful returns, so on the failing path the caller is NOT removed
from the ticket's participant set and the ticket is NOT destroyed: the
orphaned ticket `(3, [7])` survives both the failing call and the later
successful one.  This refutes the claim's guaranteed-cleanup-on-failure
part at a concrete input. -/
theorem C1_failing_compute_orphans_ticket :
    ((shared_call (fun _ => (Except.error () : Except Unit Nat)) 7 id
        (shared_make 5) 3).1 = Except.error ()) ∧
    ((shared_call (fun _ => (Except.error () : Except Unit Nat)) 7 id
        (shared_make 5) 3).2.2.underlying_lru_cache.has 3 = false) ∧
    ((shared_call (fun _ => (Except.error () : Except Unit Nat)) 7 id
        (shared_make 5) 3).2.2.is_being_evaluated = [(3, [7])]) ∧
    ((shared_call (fun k => (Except.ok k : Except Unit Nat)) 8 id
        (shared_call (fun _ => (Except.error () : Except Unit Nat)) 7 id
          (shared_make 5) 3).2.2 3).2.1 = outcome.fresh) ∧
    ((shared_call (fun k => (Except.ok k : Except Unit Nat)) 8 id
        (shared_call (fun _ => (Except.error () : Except Unit Nat)) 7 id
          (shared_make 5) 3).2.2 3).1 = Except.ok 3) ∧
    ((shared_call (fun k => (Except.ok k : Except Unit Nat)) 8 id
        (shared_call (fun _ => (Except.error () : Except Unit Nat)) 7 id
          (shared_make 5) 3).2.2 3).2.2.is_being_evaluated = [(3, [7])]) :=
  ⟨rfl, rfl, rfl, rfl, rfl, rfl⟩

end LruTimday
